import Mathlib

/-!
Verification of the ws2812-pio driver (src/lib.rs) against its
natural-language specification.  The Rust source is shallowly embedded:
machine integers (`u32`, `u16`, `u8`) become `Nat` with explicit
`% 2 ^ w` at the points where the Rust code truncates or could wrap,
pure functions become Lean functions, and the interaction with the
hardware FIFO / timer is modelled by explicit schedules and event traces.
-/

namespace Ws2812Pio

/-! ### Clock divisor computation

Embeds `Ws2812Direct::new_generic` (src/lib.rs lines 110-152).
`T1`, `T2`, `T3`, `CYCLES_PER_BIT` and `FREQ` are the constants declared
there; `divInt`, `divRem`, `divFrac` are the values of the local
variables `int`, `rem`, `frac` before the assert; `divisorValid` is the
condition of the `assert!`; `regIntOf` is the `if int == 65536 { int = 0 }`
remapping; `clockDivisor` chains them, with the lossy `as u16` / `as u8`
casts embedded as `% 2 ^ 16` / `% 2 ^ 8`, returning `none` when the
assert fires.  All arithmetic in the Rust code is on `u32`; the single
place where a `u32` product could exceed 32 bits, `rem * 256`, carries an
explicit `% 2 ^ 32`. -/

def T1 : Nat := 2

def T2 : Nat := 5

def T3 : Nat := 3

def CYCLES_PER_BIT : Nat := T1 + T2 + T3

/-- `HertzU32::kHz(800)`, i.e. 800_000 Hz. -/
def FREQ : Nat := 800 * 1000

def U32_LIMIT : Nat := 2 ^ 32

def bitFreq : Nat := FREQ * CYCLES_PER_BIT

def divInt (clock : Nat) : Nat := clock / bitFreq

def divRem (clock : Nat) : Nat := clock - divInt clock * bitFreq

def divFrac (clock : Nat) : Nat := divRem clock * 256 % U32_LIMIT / bitFreq

/-- The `assert!` condition:
`(1..=65536).contains(&int) && (int != 65536 || frac == 0)`. -/
def divisorValid (clock : Nat) : Bool :=
  decide (1 ≤ divInt clock ∧ divInt clock ≤ 65536) &&
  decide (divInt clock ≠ 65536 ∨ divFrac clock = 0)

/-- `if int == 65536 { int = 0 }`: 65536.0 is represented as 0 in the
PIO clock divider. -/
def regIntOf (i : Nat) : Nat := if i = 65536 then 0 else i

/-- The (integer, fraction) pair handed to `clock_divisor_fixed_point`,
or `none` when the `assert!` fires.  The `% 2 ^ 16` and `% 2 ^ 8` embed
the `as u16` / `as u8` casts. -/
def clockDivisor (clock : Nat) : Option (Nat × Nat) :=
  if divisorValid clock then
    some (regIntOf (divInt clock) % 2 ^ 16, divFrac clock % 2 ^ 8)
  else none

/-! ### Color encoding

Embeds the `ColorFormat` impls for `smart_leds_trait::RGB8` and
`smart_leds_trait::RGBW<u8, u8>` (src/lib.rs lines 241-256).  The struct
fields are `u8` values; `White` is the one-field wrapper around the
white channel accessed as `self.a.0` in the source. -/

structure RGB8 where
  r : Nat
  g : Nat
  b : Nat

structure White where
  w : Nat

structure RGBW where
  r : Nat
  g : Nat
  b : Nat
  a : White

/-- `(u32::from(self.g) << 24) | (u32::from(self.r) << 16) | (u32::from(self.b) << 8)` -/
def RGB8.toWord (c : RGB8) : Nat :=
  c.g <<< 24 ||| c.r <<< 16 ||| c.b <<< 8

/-- The RGBW variant additionally ors in `u32::from(self.a.0)`. -/
def RGBW.toWord (c : RGBW) : Nat :=
  c.g <<< 24 ||| c.r <<< 16 ||| c.b <<< 8 ||| c.a.w

/-! ### Helper lemmas -/

lemma divRem_eq_mod (clock : Nat) : divRem clock = clock % bitFreq := by
  unfold divRem divInt bitFreq FREQ CYCLES_PER_BIT T1 T2 T3
  omega

lemma divRem_lt (clock : Nat) : divRem clock < bitFreq := by
  rw [divRem_eq_mod]
  exact Nat.mod_lt _ (by unfold bitFreq FREQ CYCLES_PER_BIT T1 T2 T3; omega)

lemma divRem_mul_lt (clock : Nat) : divRem clock * 256 < U32_LIMIT := by
  have h := divRem_lt clock
  unfold bitFreq FREQ CYCLES_PER_BIT T1 T2 T3 at h
  unfold U32_LIMIT
  omega

lemma divFrac_eq (clock : Nat) : divFrac clock = divRem clock * 256 / bitFreq := by
  unfold divFrac
  rw [Nat.mod_eq_of_lt (divRem_mul_lt clock)]

lemma divFrac_le (clock : Nat) : divFrac clock ≤ 255 := by
  rw [divFrac_eq]
  have h := divRem_lt clock
  unfold bitFreq FREQ CYCLES_PER_BIT T1 T2 T3 at h ⊢
  omega

lemma divisorValid_iff (clock : Nat) :
    divisorValid clock = true ↔
      (1 ≤ divInt clock ∧ divInt clock ≤ 65536) ∧
      (divInt clock ≠ 65536 ∨ divFrac clock = 0) := by
  unfold divisorValid
  simp

lemma regIntOf_lt {i : Nat} (h : i ≤ 65536) : regIntOf i < 2 ^ 16 := by
  unfold regIntOf
  split <;> omega

/-- Claim C1: for every input clock frequency accepted at construction,
the constructor computes `int_part = floor(system_clock_hz / 8_000_000)`
and `frac_part = floor((system_clock_hz - int_part * 8_000_000) * 256 /
8_000_000)`, where 8_000_000 is the 800_000 Hz target bit rate times the
10 cycles per bit; in particular a 125_000_000 Hz clock gives
`int_part = 15` and `frac_part = 160`. -/
theorem divisor_formula (clock : Nat) (_hacc : divisorValid clock = true) :
    bitFreq = 800000 * 10 ∧
    divInt clock = clock / 8000000 ∧
    divFrac clock = (clock - clock / 8000000 * 8000000) * 256 / 8000000 ∧
    divInt 125000000 = 15 ∧ divFrac 125000000 = 160 := by
  refine ⟨by unfold bitFreq FREQ CYCLES_PER_BIT T1 T2 T3; norm_num, rfl, ?_, by decide, by decide⟩
  rw [divFrac_eq]
  unfold divRem divInt bitFreq FREQ CYCLES_PER_BIT T1 T2 T3
  norm_num

theorem divisor_formula_witness :
    divisorValid 125000000 = true ∧
    divInt 125000000 = 125000000 / 8000000 ∧ divFrac 125000000 = 160 := by
  have h : divisorValid 125000000 = true := by decide
  exact ⟨h, (divisor_formula 125000000 h).2.1, (divisor_formula 125000000 h).2.2.2.2⟩

/-- Claim C2: driver construction fails with the fatal configuration
error exactly when the computed divisor is invalid: when `int_part` lies
outside `[1, 65536]`, or `int_part = 65536` with a nonzero `frac_part`;
whenever the divisor is valid the error is not raised. -/
theorem construction_fails_iff_divisor_invalid (clock : Nat) :
    clockDivisor clock = none ↔
      divInt clock < 1 ∨ 65536 < divInt clock ∨
        (divInt clock = 65536 ∧ divFrac clock ≠ 0) := by
  unfold clockDivisor
  by_cases h : divisorValid clock = true
  · rw [if_pos h]
    rw [divisorValid_iff] at h
    constructor
    · intro hc
      cases hc
    · intro hc
      omega
  · rw [if_neg h]
    rw [Bool.not_eq_true] at h
    have h2 : ¬ ((1 ≤ divInt clock ∧ divInt clock ≤ 65536) ∧
        (divInt clock ≠ 65536 ∨ divFrac clock = 0)) := by
      intro hc
      rw [← divisorValid_iff] at hc
      rw [h] at hc
      cases hc
    constructor
    · intro _
      omega
    · intro _
      rfl

/-- Claim C8: an `int_part` of exactly 65536 is written to the hardware
clock-divisor register as the integer 0, while every other valid
`int_part` in `[1, 65535]` is written unchanged; accordingly the integer
half of every successfully computed divisor is `regIntOf` of the
computed integer part. -/
theorem divisor_register_encoding :
    regIntOf 65536 = 0 ∧
    (∀ i : Nat, 1 ≤ i → i ≤ 65535 → regIntOf i = i) ∧
    (∀ clock p, clockDivisor clock = some p → p.1 = regIntOf (divInt clock)) := by
  refine ⟨rfl, fun i h1 h2 => ?_, fun clock p hp => ?_⟩
  · unfold regIntOf
    rw [if_neg (by omega)]
  · unfold clockDivisor at hp
    by_cases h : divisorValid clock = true
    · rw [if_pos h] at hp
      have hint : divInt clock ≤ 65536 := ((divisorValid_iff clock).mp h).1.2
      have := regIntOf_lt hint
      cases hp
      simp only
      omega
    · rw [if_neg h] at hp
      cases hp

theorem divisor_register_encoding_witness :
    regIntOf 65536 = 0 ∧ regIntOf 15 = 15 ∧
    (clockDivisor 125000000 = some (15, 160) → (15, 160).1 = regIntOf (divInt 125000000)) := by
  refine ⟨divisor_register_encoding.1,
    divisor_register_encoding.2.1 15 (by decide) (by decide),
    fun h => divisor_register_encoding.2.2 125000000 (15, 160) h⟩

/-- Claim C9: under the constructor's validity check the narrowing casts
are lossless: `rem * 256` stays below `2 ^ 32`, the fraction is at most
255 so the `as u8` cast preserves it, and the register-mapped integer
part fits in 16 bits so the `as u16` cast preserves it. -/
theorem casts_lossless (clock : Nat) (hacc : divisorValid clock = true) :
    divRem clock < bitFreq ∧
    divRem clock * 256 < 2 ^ 32 ∧
    divFrac clock ≤ 255 ∧
    regIntOf (divInt clock) < 2 ^ 16 ∧
    regIntOf (divInt clock) % 2 ^ 16 = regIntOf (divInt clock) ∧
    divFrac clock % 2 ^ 8 = divFrac clock := by
  have hint : divInt clock ≤ 65536 := ((divisorValid_iff clock).mp hacc).1.2
  have h1 := divRem_lt clock
  have h2 := divRem_mul_lt clock
  have h3 := divFrac_le clock
  have h4 := regIntOf_lt hint
  exact ⟨h1, by unfold U32_LIMIT at h2; omega,
    h3, h4, Nat.mod_eq_of_lt h4, Nat.mod_eq_of_lt (by omega)⟩

theorem casts_lossless_witness :
    divisorValid 125000000 = true ∧
    divFrac 125000000 ≤ 255 ∧ divFrac 125000000 % 2 ^ 8 = divFrac 125000000 := by
  have h : divisorValid 125000000 = true := by decide
  exact ⟨h, (casts_lossless 125000000 h).2.2.1, (casts_lossless 125000000 h).2.2.2.2.2⟩

/-! ### Low byte of the packed word -/

lemma shift_or_low_byte (g r b : Nat) :
    (g <<< 24 ||| r <<< 16 ||| b <<< 8) % 2 ^ 8 = 0 := by
  apply Nat.eq_of_testBit_eq
  intro i
  simp only [Nat.testBit_mod_two_pow, Nat.testBit_or, Nat.testBit_shiftLeft, Nat.zero_testBit]
  by_cases h : i < 8
  · have h24 : ¬ (24 ≤ i) := by omega
    have h16 : ¬ (16 ≤ i) := by omega
    have h8 : ¬ (8 ≤ i) := by omega
    simp [h24, h16, h8]
  · simp [h]

/-- Claim C3: `to_word` packs a 3-byte RGB color as
`(g <<< 24) ||| (r <<< 16) ||| (b <<< 8)` with a zero low byte, and a
4-byte RGBW color as the same word with the white channel in the low
byte; the concrete encodings of (r=255, g=0, b=255, w=127) and
(r=255, g=0, b=255) are 0x00FFFF7F and 0x00FFFF00. -/
theorem to_word_layout (c : RGB8) (d : RGBW) :
    RGB8.toWord c = c.g <<< 24 ||| c.r <<< 16 ||| c.b <<< 8 ∧
    RGB8.toWord c % 256 = 0 ∧
    RGBW.toWord d = d.g <<< 24 ||| d.r <<< 16 ||| d.b <<< 8 ||| d.a.w ∧
    RGBW.toWord ⟨255, 0, 255, ⟨127⟩⟩ = 0x00FFFF7F ∧
    RGB8.toWord ⟨255, 0, 255⟩ = 0x00FFFF00 := by
  refine ⟨rfl, ?_, rfl, by decide, by decide⟩
  have h := shift_or_low_byte c.g c.r c.b
  unfold RGB8.toWord
  exact h

/-! ### The write path

Embeds `<Ws2812Direct as SmartLedsWrite>::write` (src/lib.rs lines
274-288).  The hardware FIFO `Tx` is an external collaborator: its
`write` call either accepts the word or reports a full FIFO.  We model
the successive answers of `tx.write(..)` by a finite schedule of
booleans; the inner `while !self.tx.write(word) {}` loop consumes the
schedule until an acceptance, and a schedule that runs out models the
loop still spinning (the Rust loop would block forever), returned as
`none`.  The result records the accepted words in push order, the
unconsumed schedule, and the Rust `Result<(), ()>` value. -/

def txWriteLoop : List Bool → Option (List Bool)
  | [] => none
  | accept :: rest => if accept then some rest else txWriteLoop rest

def writeDirect {α : Type} (toWord : α → Nat) :
    List Bool → List α → Option (List Nat × List Bool × Except Unit Unit)
  | sched, [] => some ([], sched, Except.ok ())
  | sched, c :: cs =>
    match txWriteLoop sched with
    | none => none
    | some rest =>
      match writeDirect toWord rest cs with
      | none => none
      | some (ws, rest2, r) => some (toWord c :: ws, rest2, r)

/-! ### The gated write path

Embeds `<Ws2812 as SmartLedsWrite>::write` (src/lib.rs lines 436-448).
The gated variant first calls `clear_stalled_flag`, then runs
`while !self.driver.tx.is_empty() && !self.driver.tx.has_stalled() {}`,
then `cd.start(60us)` and blocks on `cd.wait()`, and finally delegates
to the plain driver's write.  The successive `(is_empty, has_stalled)`
readings after the clear are modelled by a finite list of observation
pairs; `spinWait` consumes them exactly as the loop condition dictates
and returns the observation on which the loop exits.  `writeGated`
produces the externally visible event trace in program order. -/

inductive GEvent
| clearStall
| startCountdown (us : Nat)
| waitCountdown
| push (w : Nat)

def spinWait : List (Bool × Bool) → Option ((Bool × Bool) × List (Bool × Bool))
  | [] => none
  | (e, s) :: rest => if !e && !s then spinWait rest else some ((e, s), rest)

def writeGated {α : Type} (toWord : α → Nat) (polls : List (Bool × Bool))
    (sched : List Bool) (colors : List α) : Option (List GEvent × Except Unit Unit) :=
  match spinWait polls with
  | none => none
  | some _ =>
    match writeDirect toWord sched colors with
    | none => none
    | some (ws, _, r) =>
      some (GEvent.clearStall :: GEvent.startCountdown 60 :: GEvent.waitCountdown ::
        ws.map GEvent.push, r)

/-! ### The smart-leds 0.2 compatibility entry points

`<Ws2812Direct as SmartLedsWrite02>::write` (src/lib.rs lines 291-313)
and `<Ws2812 as SmartLedsWrite02>::write` (lines 451-468) each consist
of a single delegation call to the current-trait `write` on the same
receiver. -/

def writeDirect02 {α : Type} (toWord : α → Nat) (sched : List Bool) (colors : List α) :
    Option (List Nat × List Bool × Except Unit Unit) :=
  writeDirect toWord sched colors

def writeGated02 {α : Type} (toWord : α → Nat) (polls : List (Bool × Bool))
    (sched : List Bool) (colors : List α) : Option (List GEvent × Except Unit Unit) :=
  writeGated toWord polls sched colors

/-! ### Write path helper lemmas -/

lemma writeDirect_out {α : Type} (toWord : α → Nat) :
    ∀ (colors : List α) (sched : List Bool) out,
      writeDirect toWord sched colors = some out →
      out.1 = colors.map toWord ∧ out.2.2 = Except.ok ()
  | [], sched, out, h => by
    unfold writeDirect at h
    cases h
    exact ⟨rfl, rfl⟩
  | c :: cs, sched, out, h => by
    unfold writeDirect at h
    cases hl : txWriteLoop sched with
    | none =>
      simp only [hl] at h
      exact Option.noConfusion h
    | some rest =>
      simp only [hl] at h
      cases hr : writeDirect toWord rest cs with
      | none =>
        simp only [hr] at h
        exact Option.noConfusion h
      | some o2 =>
        obtain ⟨ws, rest2, r⟩ := o2
        simp only [hr] at h
        cases h
        have ih := writeDirect_out toWord cs rest (ws, rest2, r) hr
        exact ⟨congrArg (fun l => toWord c :: l) ih.1, ih.2⟩

lemma txWriteLoop_count {sched : List Bool} (h : 0 < sched.count true) :
    ∃ rest, txWriteLoop sched = some rest ∧ rest.count true + 1 = sched.count true := by
  induction sched with
  | nil => simp at h
  | cons a rest ih =>
    cases a with
    | true =>
      refine ⟨rest, rfl, ?_⟩
      rw [List.count_cons_self]
    | false =>
      rw [List.count_cons_of_ne (by decide)] at h
      obtain ⟨r2, hr2, hc⟩ := ih h
      refine ⟨r2, hr2, ?_⟩
      rw [List.count_cons_of_ne (by decide)]
      exact hc

lemma writeDirect_total {α : Type} (toWord : α → Nat) :
    ∀ (colors : List α) (sched : List Bool),
      colors.length ≤ sched.count true →
      (writeDirect toWord sched colors).isSome = true
  | [], sched, _ => rfl
  | c :: cs, sched, h => by
    have hpos : 0 < sched.count true := by
      simp only [List.length_cons] at h
      omega
    obtain ⟨rest, hl, hc⟩ := txWriteLoop_count hpos
    have ih := writeDirect_total toWord cs rest (by
      simp only [List.length_cons] at h
      omega)
    unfold writeDirect
    simp only [hl]
    cases hr : writeDirect toWord rest cs with
    | none =>
      rw [hr] at ih
      cases ih
    | some o2 =>
      obtain ⟨ws, rest2, r⟩ := o2
      simp only [hr, Option.isSome_some]

lemma spinWait_exit :
    ∀ (polls : List (Bool × Bool)) obs rest,
      spinWait polls = some (obs, rest) → (obs.1 = true ∨ obs.2 = true)
  | [], obs, rest, h => by cases h
  | (e, s) :: ps, obs, rest, h => by
    unfold spinWait at h
    by_cases hc : (!e && !s) = true
    · rw [if_pos hc] at h
      exact spinWait_exit ps obs rest h
    · rw [if_neg hc] at h
      cases h
      simp only [Bool.and_eq_true, Bool.not_eq_true'] at hc
      rcases e with _ | _ <;> rcases s with _ | _ <;> simp_all

/-- Claim C5: a `write` call pushes exactly one 32-bit word per input
color into the transmit queue, in input order; writing the empty
sequence pushes zero words, consumes no FIFO slot, and returns `Ok(())`
without blocking. -/
theorem write_preserves_order {α : Type} (toWord : α → Nat)
    (sched : List Bool) (colors : List α) :
    (∀ out, writeDirect toWord sched colors = some out → out.1 = colors.map toWord) ∧
    writeDirect toWord sched [] = some ([], sched, Except.ok ()) :=
  ⟨fun out h => (writeDirect_out toWord colors sched out h).1, rfl⟩

theorem write_preserves_order_witness :
    ([RGB8.toWord ⟨255, 0, 255⟩, RGB8.toWord ⟨0, 16, 0⟩] : List Nat) =
      ([⟨255, 0, 255⟩, ⟨0, 16, 0⟩] : List RGB8).map RGB8.toWord :=
  (write_preserves_order RGB8.toWord [true, false, true]
      [⟨255, 0, 255⟩, ⟨0, 16, 0⟩]).1
    ([RGB8.toWord ⟨255, 0, 255⟩, RGB8.toWord ⟨0, 16, 0⟩], [], Except.ok ()) (by rfl)

/-- Claim C6: once construction succeeded, `write` is infallible: a full
FIFO only makes the push loop spin, so whenever the call returns it
returns `Ok(())`, and it does return as soon as the FIFO accepts one
word per color. -/
theorem write_infallible {α : Type} (toWord : α → Nat)
    (sched : List Bool) (colors : List α) :
    (∀ out, writeDirect toWord sched colors = some out → out.2.2 = Except.ok ()) ∧
    (colors.length ≤ sched.count true → (writeDirect toWord sched colors).isSome = true) :=
  ⟨fun out h => (writeDirect_out toWord colors sched out h).2,
   fun h => writeDirect_total toWord colors sched h⟩

theorem write_infallible_witness :
    (writeDirect RGB8.toWord [false, true] [(⟨0, 0, 0⟩ : RGB8)]).isSome = true :=
  (write_infallible RGB8.toWord [false, true] [⟨0, 0, 0⟩]).2 (by decide)

/-- Claim C4, counterexample: it is not the case that the gated write's
spin loop runs until the queue is empty AND has stalled; the loop
`while !is_empty && !has_stalled {}` exits on the observation
`(is_empty = true, has_stalled = false)`, i.e. on empty OR stalled. -/
theorem gated_wait_counterexample :
    ¬ (∀ (polls : List (Bool × Bool)) obs rest,
        spinWait polls = some (obs, rest) → obs.1 = true ∧ obs.2 = true) := by
  intro h
  have hc := h [(true, false)] (true, false) [] (by rfl)
  exact absurd hc.2 (by decide)

/-- Claim C4 as amended: the gated write first clears the stall flag,
spins until the queue is empty OR has signaled a stall, then starts a
60-microsecond countdown and blocks on it, and only then delegates to
the plain write; so the trace is exactly clear-stall, start-countdown
60, wait-countdown, followed by one push per color in input order, and
the spin loop's exit observation satisfies empty-or-stalled. -/
theorem gated_write_trace {α : Type} (toWord : α → Nat)
    (polls : List (Bool × Bool)) (sched : List Bool) (colors : List α)
    (out : List GEvent × Except Unit Unit)
    (h : writeGated toWord polls sched colors = some out) :
    out.1 = GEvent.clearStall :: GEvent.startCountdown 60 :: GEvent.waitCountdown ::
        (colors.map toWord).map GEvent.push ∧
    out.2 = Except.ok () ∧
    (∃ obs rest, spinWait polls = some (obs, rest) ∧ (obs.1 = true ∨ obs.2 = true)) := by
  unfold writeGated at h
  cases hp : spinWait polls with
  | none =>
    simp only [hp] at h
    exact Option.noConfusion h
  | some q =>
    obtain ⟨obs, prest⟩ := q
    simp only [hp] at h
    cases hw : writeDirect toWord sched colors with
    | none =>
      simp only [hw] at h
      exact Option.noConfusion h
    | some o =>
      obtain ⟨ws, rest2, r2⟩ := o
      simp only [hw] at h
      cases h
      have hout := writeDirect_out toWord colors sched (ws, rest2, r2) hw
      exact ⟨congrArg
          (fun l => GEvent.clearStall :: GEvent.startCountdown 60 ::
            GEvent.waitCountdown :: l)
          (congrArg (List.map GEvent.push) hout.1),
        hout.2, ⟨obs, prest, rfl, spinWait_exit polls obs prest hp⟩⟩

theorem gated_write_trace_witness :
    (([GEvent.clearStall, GEvent.startCountdown 60, GEvent.waitCountdown,
        GEvent.push (RGB8.toWord ⟨255, 0, 255⟩)], Except.ok ()) :
          List GEvent × Except Unit Unit).1 =
      GEvent.clearStall :: GEvent.startCountdown 60 :: GEvent.waitCountdown ::
        (([⟨255, 0, 255⟩] : List RGB8).map RGB8.toWord).map GEvent.push ∧
    (([GEvent.clearStall, GEvent.startCountdown 60, GEvent.waitCountdown,
        GEvent.push (RGB8.toWord ⟨255, 0, 255⟩)], Except.ok ()) :
          List GEvent × Except Unit Unit).2 = Except.ok () ∧
    (∃ obs rest, spinWait [(true, true)] = some (obs, rest) ∧
      (obs.1 = true ∨ obs.2 = true)) :=
  gated_write_trace RGB8.toWord [(true, true)] [true] [⟨255, 0, 255⟩]
    ([GEvent.clearStall, GEvent.startCountdown 60, GEvent.waitCountdown,
      GEvent.push (RGB8.toWord ⟨255, 0, 255⟩)], Except.ok ()) (by rfl)

/-- Claim C10: the smart-leds 0.2 write entry points merely delegate, so
on every input they are extensionally equal to the current-trait write
on the same driver state, both for the direct driver and for the gated
driver. -/
theorem legacy_write_delegates {α : Type} (toWord : α → Nat)
    (polls : List (Bool × Bool)) (sched : List Bool) (colors : List α) :
    writeDirect02 toWord sched colors = writeDirect toWord sched colors ∧
    writeGated02 toWord polls sched colors = writeGated toWord polls sched colors :=
  ⟨rfl, rfl⟩

/-! ### The PIO micro-program

Embeds the assembler calls of `Ws2812Direct::new_generic` (src/lib.rs
lines 107-130).  The `pio` crate's `Assembler` is modelled as a list of
instructions carrying delay and side-set values, where jumps first refer
to label ids; `a.label()` allocates the next label id, `a.bind(l)` binds
the id to the current instruction address, and `assemble_with_wrap`
resolves jump targets and, following the pio crate's convention, records
the wrap point as the address of the instruction preceding the bind
position of the source label (the crate computes `source.offset() - 1`),
together with the address of the target label.  `nop()` is retained as
an explicit marker for the crate's `mov y, y` encoding. -/

inductive OutDest
| Pins
| X
| Y
| Null
| PinDirs
| PC
| ISR
| Exec
deriving DecidableEq

inductive JmpCond
| Always
| XIsZero
| XDecNonZero
| YIsZero
| YDecNonZero
| XNotEqualY
| PinHigh
| OutputShiftRegisterNotEmpty
deriving DecidableEq

structure SideSet where
  optional : Bool
  bits : Nat
  pindirs : Bool
deriving DecidableEq

inductive AsmOp
| out (destination : OutDest) (bitCount : Nat)
| jmp (condition : JmpCond) (target : Nat)
| nop
deriving DecidableEq

structure AsmInstr where
  op : AsmOp
  delay : Nat
  side : Nat
deriving DecidableEq

structure Assembler where
  sideSet : SideSet
  instructions : List AsmInstr
  nextLabel : Nat
  bound : List (Nat × Nat)

def Assembler.newWithSideSet (ss : SideSet) : Assembler :=
  ⟨ss, [], 0, []⟩

def Assembler.newLabel (a : Assembler) : Assembler × Nat :=
  ({ a with nextLabel := a.nextLabel + 1 }, a.nextLabel)

def Assembler.bindLabel (a : Assembler) (l : Nat) : Assembler :=
  { a with bound := (l, a.instructions.length) :: a.bound }

def Assembler.outWithDelayAndSideSet (a : Assembler) (d : OutDest)
    (bitCount delay side : Nat) : Assembler :=
  { a with instructions := a.instructions ++ [⟨AsmOp.out d bitCount, delay, side⟩] }

def Assembler.jmpWithDelayAndSideSet (a : Assembler) (c : JmpCond)
    (l delay side : Nat) : Assembler :=
  { a with instructions := a.instructions ++ [⟨AsmOp.jmp c l, delay, side⟩] }

def Assembler.nopWithDelayAndSideSet (a : Assembler) (delay side : Nat) : Assembler :=
  { a with instructions := a.instructions ++ [⟨AsmOp.nop, delay, side⟩] }

def lookupLabel (bound : List (Nat × Nat)) (l : Nat) : Nat :=
  ((bound.find? fun p => p.1 == l).map Prod.snd).getD 0

def resolveInstr (bound : List (Nat × Nat)) (i : AsmInstr) : AsmInstr :=
  match i.op with
  | AsmOp.jmp c l => ⟨AsmOp.jmp c (lookupLabel bound l), i.delay, i.side⟩
  | _ => i

structure PioProgram where
  sideSet : SideSet
  code : List AsmInstr
  wrapSource : Nat
  wrapTarget : Nat
deriving DecidableEq

def Assembler.assembleWithWrap (a : Assembler) (source target : Nat) : PioProgram :=
  { sideSet := a.sideSet
    code := a.instructions.map (resolveInstr a.bound)
    wrapSource := lookupLabel a.bound source - 1
    wrapTarget := lookupLabel a.bound target }

/-- `pio::SideSet::new(false, 1, false)` from src/lib.rs line 107. -/
def ws2812SideSet : SideSet := ⟨false, 1, false⟩

/-- The program built in `new_generic`, transcribed call by call from
src/lib.rs lines 108-130. -/
def ws2812Program : PioProgram :=
  let a := Assembler.newWithSideSet ws2812SideSet
  let (a, wrapTargetL) := a.newLabel
  let (a, wrapSourceL) := a.newLabel
  let (a, doZeroL) := a.newLabel
  let a := a.bindLabel wrapTargetL
  let a := a.outWithDelayAndSideSet OutDest.X 1 (T3 - 1) 0
  let a := a.jmpWithDelayAndSideSet JmpCond.XIsZero doZeroL (T1 - 1) 1
  let a := a.jmpWithDelayAndSideSet JmpCond.Always wrapTargetL (T2 - 1) 1
  let a := a.bindLabel doZeroL
  let a := a.nopWithDelayAndSideSet (T2 - 1) 0
  let a := a.bindLabel wrapSourceL
  a.assembleWithWrap wrapSourceL wrapTargetL

/-- Claim C7: the synthesized micro-program, built with the fixed cycle
counts T1 = 2, T2 = 5, T3 = 3, is exactly a 4-instruction wrapped loop:
at address 0 an `out` shifting 1 bit into scratch register X with
side-set 0 and delay T3 - 1; at address 1 a jump-if-X-is-zero to the
zero path (address 3) with side-set 1 and delay T1 - 1; at address 2 an
unconditional jump back to the loop entry (address 0) with side-set 1
and delay T2 - 1; at address 3 a nop with side-set 0 and delay T2 - 1;
and the wrap leads from after address 3 back to the loop entry at
address 0. -/
theorem pio_program_shape :
    ws2812Program.code =
      [⟨AsmOp.out OutDest.X 1, T3 - 1, 0⟩,
       ⟨AsmOp.jmp JmpCond.XIsZero 3, T1 - 1, 1⟩,
       ⟨AsmOp.jmp JmpCond.Always 0, T2 - 1, 1⟩,
       ⟨AsmOp.nop, T2 - 1, 0⟩] ∧
    ws2812Program.code.length = 4 ∧
    ws2812Program.wrapSource = 3 ∧
    ws2812Program.wrapTarget = 0 ∧
    ws2812Program.sideSet = ws2812SideSet ∧
    T1 = 2 ∧ T2 = 5 ∧ T3 = 3 := by
  refine ⟨by decide, by decide, by decide, by decide, by decide, rfl, rfl, rfl⟩

end Ws2812Pio
